import Mathlib

/-!
Verification of the core of `path.js` (`src/path.ts`): the `Path.list`
traversal engine, the `Path` constructor, and the temporary-directory
lifecycle (`Path.tempDir` / `Path.tempDirSync`, `TempDir.destroy` /
`TempDir.destroySync`, `tempDirPrefix`, `tempDirRemoved`, and the
`process.on('exit')` sweep).

The file-system and the Node `path` module are external collaborators of
the repository (its "primitive file-system provider"); they are modeled
here with POSIX semantics: `splitSlash` / `joinSlash` / `normSegs` model
Node's `normalizeString` segment resolution, `pjoin` models
`path.join`, and `presolve` models `path.resolve` with an explicit
current working directory.  Directory trees are modeled by the `Entry`
inductive, and the asynchronous generator `list` by the function
`listEntries`, which returns, in order, the locations the generator
yields.
-/

/-- Does the string start with the character `c`?  Used for the host's
hidden-file marker (leading `.`) and POSIX absoluteness (leading `/`). -/
def startsWithChar (c : Char) (s : String) : Bool :=
  match s.data with
  | [] => false
  | a :: _ => a == c

/-- The hidden-entry test of `Path.list` (`file.name.startsWith('.')`). -/
def startsWithDot (s : String) : Bool :=
  startsWithChar '.' s

/-- Models the host's `path.isAbsolute` for POSIX paths (leading `/`). -/
def isAbs (s : String) : Bool :=
  startsWithChar '/' s

/-- Does the string end with a `/`?  (Node `normalize` tracks a trailing
separator.) -/
def endsWithSlash (s : String) : Bool :=
  match s.data.getLast? with
  | some a => a == '/'
  | none => false

/-- Split a character list at `/` boundaries into path segments. -/
def splitSlashAux : List Char → List Char → List String
  | [], acc => [String.mk acc.reverse]
  | c :: rest, acc =>
    if c == '/' then String.mk acc.reverse :: splitSlashAux rest []
    else splitSlashAux rest (c :: acc)

/-- Split a string at `/` boundaries into path segments. -/
def splitSlash (s : String) : List String :=
  splitSlashAux s.data []

/-- Join path segments with `/` separators (no trailing separator). -/
def joinSlash : List String → String
  | [] => ""
  | [s] => s
  | s :: rest => s ++ "/" ++ joinSlash rest

/-- The `..` step of Node's `normalizeString`: pop the last real
segment; when there is nothing to pop, keep a `..` only when
`allowAboveRoot` is true. -/
def popDotDot (allowAboveRoot : Bool) : List String → List String
  | [] => if allowAboveRoot then [".."] else []
  | top :: stackTail =>
    if top == ".." then (if allowAboveRoot then ".." :: top :: stackTail else top :: stackTail)
    else stackTail

/-- Models Node's `normalizeString` segment resolution: drop empty and
`.` segments; `..` pops via `popDotDot`.  `stack` holds the
already-resolved segments in reverse order. -/
def normSegs (allowAboveRoot : Bool) : List String → List String → List String
  | stack, [] => stack.reverse
  | stack, seg :: rest =>
    if seg == "" || seg == "." then normSegs allowAboveRoot stack rest
    else if seg == ".." then normSegs allowAboveRoot (popDotDot allowAboveRoot stack) rest
    else normSegs allowAboveRoot (seg :: stack) rest

/-- Models Node's `normalizeString(path, allowAboveRoot, '/', ...)`. -/
def normalizeString (p : String) (allowAboveRoot : Bool) : String :=
  joinSlash (normSegs allowAboveRoot [] (splitSlash p))

/-- Models the host's `path.posix.normalize`. -/
def pnormalize (p : String) : String :=
  if p == "" then "."
  else
    let abs := isAbs p
    let trailing := endsWithSlash p
    let ns := normalizeString p (!abs)
    if ns == "" then
      if abs then "/" else if trailing then "./" else "."
    else
      let ns2 := if trailing then ns ++ "/" else ns
      if abs then "/" ++ ns2 else ns2

/-- Models the host's `path.posix.join`: zero-length segments are
ignored; if nothing remains the result is `.`, otherwise the segments
are joined with `/` and normalized. -/
def pjoin (parts : List String) : String :=
  let ne := parts.filter (fun p => !(p == ""))
  if ne.isEmpty then "." else pnormalize (joinSlash ne)

/-- One step of the host's `path.posix.resolve` accumulation loop:
paths are prepended right-to-left (the process cwd last) until an
absolute one is found; returns the accumulated string and whether an
absolute path was reached. -/
def resolveLoop : List String → String → String × Bool
  | [], acc => (acc, false)
  | p :: rest, acc =>
    if p == "" then resolveLoop rest acc
    else
      let acc2 := p ++ "/" ++ acc
      if isAbs p then (acc2, true) else resolveLoop rest acc2

/-- Models the host's `path.posix.resolve(...args)` with the process
current working directory `cwd` made explicit. -/
def presolve (cwd : String) (args : List String) : String :=
  let rl := resolveLoop (args.reverse ++ [cwd]) ""
  let ns := normalizeString rl.1 (!rl.2)
  if rl.2 then "/" ++ ns
  else if ns == "" then "." else ns

/-- Embeds the `Path` constructor (src/path.ts:45-47):
`this._path = parts.length === 0 ? process.cwd() : parts.length === 1 ?
parts[0] : path.join(...parts)`, with `process.cwd()` made explicit. -/
def pathCtor (cwd : String) : List String → String
  | [] => cwd
  | [p] => p
  | parts => pjoin parts

/-! ## The traversal engine: `Path.list` (src/path.ts:288-307) -/

/-- A directory entry as enumerated by the host's `readdir` with
`withFileTypes`: a base name plus an is-directory classification, with
the subtree of a directory made explicit so the walk is a function of
the tree. -/
inductive Entry where
  | file (name : String)
  | dir (name : String) (children : List Entry)

/-- The recognized fields of the options object of `Path.list`; `none`
for `maxDepth` is JavaScript `undefined`. -/
structure ListOptions where
  dir : Bool := false
  hidden : Bool := false
  recursive : Bool := false
  maxDepth : Option Int := none

/-- The options passed to the recursive `list` call
(src/path.ts:301): `maxDepth === undefined ? options : {...options,
maxDepth: maxDepth - 1}`. -/
def descendOpts (opts : ListOptions) : ListOptions :=
  match opts.maxDepth with
  | none => opts
  | some k => {opts with maxDepth := some (k - 1)}

/-- Embeds the generator `Path.list` (src/path.ts:288-307) as the list
of locations it yields, in order, when run over the directory tree
`l` of the path `base`, with the process working directory `cwd` made
explicit.  For each entry: skip when `options.hidden !== true` and the
name starts with `.`; otherwise resolve the full location; a directory
is yielded when `options.dir === true` and recursed into when
`options.recursive === true && options.maxDepth !== 1`, with
`descendOpts`; a non-directory is yielded unconditionally. -/
def listEntries (cwd : String) (opts : ListOptions) (base : String) : List Entry → List String
  | [] => []
  | .file name :: rest =>
    (if !opts.hidden && startsWithDot name then []
     else [presolve cwd [base, name]]) ++
    listEntries cwd opts base rest
  | .dir name sub :: rest =>
    (if !opts.hidden && startsWithDot name then []
     else
       (if opts.dir then [presolve cwd [base, name]] else []) ++
       (if opts.recursive && !(opts.maxDepth == some 1) then
          listEntries cwd (descendOpts opts) (presolve cwd [base, name]) sub
        else [])) ++
    listEntries cwd opts base rest
termination_by l => sizeOf l

/-- The tree with every entry whose name starts with `.` removed, at
every depth.  Used to state the `hidden` exclusion rule: a traversal
that does not show hidden entries behaves as if they were not there at
all (no yield, no recursion). -/
def pruneHidden : List Entry → List Entry
  | [] => []
  | .file name :: rest =>
    if startsWithDot name then pruneHidden rest
    else .file name :: pruneHidden rest
  | .dir name sub :: rest =>
    if startsWithDot name then pruneHidden rest
    else .dir name (pruneHidden sub) :: pruneHidden rest
termination_by l => sizeOf l

/-- The traversal of `Path.list` with the hidden-entry check removed:
every entry is treated exactly like a non-hidden entry.  Used to state
that `hidden: true` disables the exclusion rule uniformly. -/
def listNoFilter (cwd : String) (opts : ListOptions) (base : String) : List Entry → List String
  | [] => []
  | .file name :: rest =>
    presolve cwd [base, name] :: listNoFilter cwd opts base rest
  | .dir name sub :: rest =>
    (if opts.dir then [presolve cwd [base, name]] else []) ++
    (if opts.recursive && !(opts.maxDepth == some 1) then
       listNoFilter cwd (descendOpts opts) (presolve cwd [base, name]) sub
     else []) ++
    listNoFilter cwd opts base rest
termination_by l => sizeOf l

/-- The number of directory levels in a tree: `0` when no entry is a
directory, and one more than the deepest subdirectory otherwise.  Used
to state that an absent `maxDepth` walks arbitrarily deep trees in
full. -/
def dirHeight : List Entry → Nat
  | [] => 0
  | .file _ :: rest => dirHeight rest
  | .dir _ sub :: rest => max (dirHeight sub + 1) (dirHeight rest)
termination_by l => sizeOf l

/-! ## The temporary-directory lifecycle (src/path.ts:514-528, 626-661) -/

/-- A JavaScript thrown value, as classified by the exit handler
(src/path.ts:658): either an `Error` instance, whose `code` property
may be absent, or a non-`Error` value. -/
inductive Thrown where
  | errObj (code : Option String)
  | nonError
deriving DecidableEq

/-- The rethrow condition of the `process.on('exit')` handler
(src/path.ts:658): `!(error instanceof Error) || (error as
NodeError).code !== 'ENOENT'`. -/
def rethrown (e : Thrown) : Bool :=
  match e with
  | .errObj code => !(code == some "ENOENT")
  | .nonError => true

/-- Embeds `tempDirPrefix` (src/path.ts:644-646):
`path.join(dir === undefined ? os.tmpdir() : dir.toString(), name ??
'node-')`, with `os.tmpdir()` made explicit as `tmpdir`.  (The source
name ends in a reserved word, hence the shortened Lean name.) -/
def tempDirPre (tmpdir : String) (dir : Option String) (name : Option String) : String :=
  pjoin [(match dir with | none => tmpdir | some d => d), name.getD "node-"]

/-- Embeds `Path.tempDir` (src/path.ts:514-519): the host `mkdtemp`
either fails, or creates a directory named prefix plus a host-generated
suffix; on success the location is pushed onto the `tempDirCleanup`
registry and a `TempDir` handle for it is returned; on failure the
error propagates and the registry is untouched.  `host` is the host
outcome (`.ok suffix` or `.error e`); returns the call's result
together with the registry after the call. -/
def tempDir (tmpdir : String) (registry : List String) (dir : Option String)
    (name : Option String) (host : Except Thrown String) :
    Except Thrown String × List String :=
  match host with
  | .error e => (.error e, registry)
  | .ok suffix =>
    let d := tempDirPre tmpdir dir name ++ suffix
    (.ok d, registry ++ [d])

/-- Embeds `Path.tempDirSync` (src/path.ts:524-528), which performs the
same steps as `Path.tempDir` with the blocking host primitive. -/
def tempDirSync (tmpdir : String) (registry : List String) (dir : Option String)
    (name : Option String) (host : Except Thrown String) :
    Except Thrown String × List String :=
  match host with
  | .error e => (.error e, registry)
  | .ok suffix =>
    let d := tempDirPre tmpdir dir name ++ suffix
    (.ok d, registry ++ [d])

/-- Embeds `tempDirRemoved` (src/path.ts:648-651): `tempDirCleanup =
tempDirCleanup.filter(tempPath => tempPath !== path)`. -/
def tempDirRemoved (p : String) (registry : List String) : List String :=
  registry.filter (fun tempPath => !(tempPath == p))

/-- Embeds `TempDir.destroy` (src/path.ts:630-633): recursive `rm` of
the handle's location, then `tempDirRemoved`.  `rm` is the host removal
outcome; returns the call's result, the registry after the call, and
the locations passed to the host removal primitive (one call is made,
before deregistration is attempted). -/
def destroy (loc : String) (registry : List String) (rm : Except Thrown Unit) :
    Except Thrown Unit × List String × List String :=
  match rm with
  | .error e => (.error e, registry, [loc])
  | .ok _ => (.ok (), tempDirRemoved loc registry, [loc])

/-- Embeds `TempDir.destroySync` (src/path.ts:638-641), the blocking
variant with the same steps as `TempDir.destroy`. -/
def destroySync (loc : String) (registry : List String) (rm : Except Thrown Unit) :
    Except Thrown Unit × List String × List String :=
  match rm with
  | .error e => (.error e, registry, [loc])
  | .ok _ => (.ok (), tempDirRemoved loc registry, [loc])

/-- Embeds the `process.on('exit')` sweep (src/path.ts:653-661): for
each registered location in order, attempt the host recursive removal
(`out`); a failure is swallowed exactly when it is an `Error` whose
`code` is `'ENOENT'`, any other failure is re-raised, ending the sweep.
Returns the sweep's outcome and the locations whose removal was
attempted, in order. -/
def sweepExit (out : String → Except Thrown Unit) : List String → Except Thrown Unit × List String
  | [] => (.ok (), [])
  | p :: rest =>
    match out p with
    | .ok _ =>
      let r := sweepExit out rest
      (r.1, p :: r.2)
    | .error e =>
      if rethrown e then (.error e, [p])
      else
        let r := sweepExit out rest
        (r.1, p :: r.2)

/-! ## Unfolding lemmas and sanity checks -/

theorem listEntries_nil (cwd : String) (opts : ListOptions) (base : String) :
    listEntries cwd opts base [] = [] := by
  simp [listEntries]

theorem listEntries_file (cwd : String) (opts : ListOptions) (base name : String)
    (rest : List Entry) :
    listEntries cwd opts base (.file name :: rest) =
      (if !opts.hidden && startsWithDot name then []
       else [presolve cwd [base, name]]) ++
      listEntries cwd opts base rest := by
  simp [listEntries]

theorem listEntries_dir (cwd : String) (opts : ListOptions) (base name : String)
    (sub rest : List Entry) :
    listEntries cwd opts base (.dir name sub :: rest) =
      (if !opts.hidden && startsWithDot name then []
       else
         (if opts.dir then [presolve cwd [base, name]] else []) ++
         (if opts.recursive && !(opts.maxDepth == some 1) then
            listEntries cwd (descendOpts opts) (presolve cwd [base, name]) sub
          else [])) ++
      listEntries cwd opts base rest := by
  simp [listEntries]

example : pjoin ["a", "b"] = "a/b" := by decide
example : pjoin ["", ""] = "." := by decide
example : pjoin ["/x//", "y", "..", "z"] = "/x/z" := by decide
example : presolve "/cwd" ["rel", "a"] = "/cwd/rel/a" := by decide
example : presolve "/cwd" ["/tmp/x", "foo"] = "/tmp/x/foo" := by decide
example : pathCtor "/home" [] = "/home" := by decide
example : pathCtor "/home" [""] = "" := by decide

example :
    listEntries "/" {recursive := true} "/tmp/x"
      [.dir "foo" [.dir "bar" [.file "one.txt"], .file "two.txt", .file ".three.txt"]] =
    ["/tmp/x/foo/bar/one.txt", "/tmp/x/foo/two.txt"] := by
  simp [listEntries_nil, listEntries_file, listEntries_dir, descendOpts]
  decide

example :
    tempDir "/tmp" [] none none (.ok "abc123") = (.ok "/tmp/node-abc123", ["/tmp/node-abc123"]) := by
  simp [tempDir, tempDirPre]
  decide

example :
    destroy "/tmp/node-a" ["/tmp/node-a", "/tmp/node-b"] (.ok ()) =
      (.ok (), ["/tmp/node-b"], ["/tmp/node-a"]) := by
  simp [destroy, tempDirRemoved]

example :
    sweepExit (fun p => if p == "/a" then .error (.errObj (some "ENOENT")) else .ok ())
      ["/a", "/b"] = (.ok (), ["/a", "/b"]) := by
  simp [sweepExit, rethrown]

/-! ## Helper lemmas -/

theorem string_ne_empty_of_data (s : String) (h : s.data ≠ []) : s ≠ "" := by
  intro he
  subst he
  exact h rfl

theorem data_append_str (a b : String) : (a ++ b).data = a.data ++ b.data := by
  cases a
  cases b
  rfl

theorem slash_append_ne_empty (s : String) : "/" ++ s ≠ "" := by
  apply string_ne_empty_of_data
  rw [data_append_str]
  simp

theorem append_slash_ne_empty (s : String) : s ++ "/" ≠ "" := by
  apply string_ne_empty_of_data
  rw [data_append_str]
  simp

theorem pnormalize_ne_empty (p : String) : pnormalize p ≠ "" := by
  rw [pnormalize]
  by_cases h0 : p == ""
  · simp [h0]
  · simp only [h0, Bool.false_eq_true, if_false]
    set ns := normalizeString p (!isAbs p) with hns
    by_cases h1 : ns == ""
    · simp only [h1, if_true]
      by_cases h2 : isAbs p <;> by_cases h3 : endsWithSlash p <;> simp [h2, h3]
    · simp only [h1, Bool.false_eq_true, if_false]
      have hne : ns ≠ "" := by simpa using h1
      by_cases h2 : isAbs p <;> by_cases h3 : endsWithSlash p <;>
        simp only [h2, h3, if_true, Bool.false_eq_true, if_false] <;>
        first
          | exact slash_append_ne_empty _
          | exact append_slash_ne_empty _
          | exact hne

theorem pjoin_ne_empty (parts : List String) : pjoin parts ≠ "" := by
  rw [pjoin]
  by_cases h : (parts.filter (fun p => !(p == ""))).isEmpty
  · simp [h]
  · simp only [h, Bool.false_eq_true, if_false]
    exact pnormalize_ne_empty _

theorem tempDirRemoved_all (loc : String) (reg : List String) :
    (tempDirRemoved loc reg).all (fun t => !(t == loc)) = true := by
  rw [List.all_eq_true]
  intro t ht
  rw [tempDirRemoved] at ht
  simpa using List.of_mem_filter ht

theorem sweepExit_all_ok (reg : List String) :
    sweepExit (fun _ => .ok ()) reg = (.ok (), reg) := by
  induction reg with
  | nil => rfl
  | cons p rest ih => simp [sweepExit, ih]

theorem sweepExit_tolerated (out : String → Except Thrown Unit) (reg : List String)
    (h : ∀ p ∈ reg, out p = .ok () ∨ out p = .error (.errObj (some "ENOENT"))) :
    sweepExit out reg = (.ok (), reg) := by
  induction reg with
  | nil => rfl
  | cons p rest ih =>
    have hp := h p (by simp)
    have hrest := ih (fun q hq => h q (by simp [hq]))
    rcases hp with hp | hp <;> simp [sweepExit, hp, rethrown, hrest]

theorem sweepExit_raise (out : String → Except Thrown Unit) (reg1 : List String)
    (p : String) (reg2 : List String) (e : Thrown)
    (h1 : ∀ q ∈ reg1, out q = .ok () ∨ out q = .error (.errObj (some "ENOENT")))
    (h2 : out p = .error e) (h3 : rethrown e = true) :
    sweepExit out (reg1 ++ p :: reg2) = (.error e, reg1 ++ [p]) := by
  induction reg1 with
  | nil => simp [sweepExit, h2, h3]
  | cons q rest ih =>
    have hq := h1 q (by simp)
    have hrest := ih (fun r hr => h1 r (by simp [hr]))
    rcases hq with hq | hq <;> simp [sweepExit, hq, rethrown, hrest]

theorem pruneHidden_nil : pruneHidden [] = [] := by
  simp [pruneHidden]

theorem pruneHidden_file (name : String) (rest : List Entry) :
    pruneHidden (.file name :: rest) =
      if startsWithDot name then pruneHidden rest
      else .file name :: pruneHidden rest := by
  simp [pruneHidden]

theorem pruneHidden_dir (name : String) (sub rest : List Entry) :
    pruneHidden (.dir name sub :: rest) =
      if startsWithDot name then pruneHidden rest
      else .dir name (pruneHidden sub) :: pruneHidden rest := by
  simp [pruneHidden]

theorem listNoFilter_nil (cwd : String) (opts : ListOptions) (base : String) :
    listNoFilter cwd opts base [] = [] := by
  simp [listNoFilter]

theorem listNoFilter_file (cwd : String) (opts : ListOptions) (base name : String)
    (rest : List Entry) :
    listNoFilter cwd opts base (.file name :: rest) =
      presolve cwd [base, name] :: listNoFilter cwd opts base rest := by
  simp [listNoFilter]

theorem listNoFilter_dir (cwd : String) (opts : ListOptions) (base name : String)
    (sub rest : List Entry) :
    listNoFilter cwd opts base (.dir name sub :: rest) =
      (if opts.dir then [presolve cwd [base, name]] else []) ++
      (if opts.recursive && !(opts.maxDepth == some 1) then
         listNoFilter cwd (descendOpts opts) (presolve cwd [base, name]) sub
       else []) ++
      listNoFilter cwd opts base rest := by
  simp [listNoFilter]

theorem dirHeight_nil : dirHeight [] = 0 := by
  simp [dirHeight]

theorem dirHeight_file (name : String) (rest : List Entry) :
    dirHeight (.file name :: rest) = dirHeight rest := by
  simp [dirHeight]

theorem dirHeight_dir (name : String) (sub rest : List Entry) :
    dirHeight (.dir name sub :: rest) = max (dirHeight sub + 1) (dirHeight rest) := by
  simp [dirHeight]

theorem descendOpts_dir (opts : ListOptions) : (descendOpts opts).dir = opts.dir := by
  cases h : opts.maxDepth <;> simp [descendOpts, h]

theorem descendOpts_hidden (opts : ListOptions) : (descendOpts opts).hidden = opts.hidden := by
  cases h : opts.maxDepth <;> simp [descendOpts, h]

theorem descendOpts_recursive (opts : ListOptions) :
    (descendOpts opts).recursive = opts.recursive := by
  cases h : opts.maxDepth <;> simp [descendOpts, h]

theorem listEntries_maxDepth_one (cwd base : String) (opts : ListOptions)
    (h : opts.maxDepth = some 1) (l : List Entry) :
    listEntries cwd opts base l = listEntries cwd {opts with recursive := false} base l := by
  induction l with
  | nil => rw [listEntries_nil, listEntries_nil]
  | cons e rest ih =>
    cases e with
    | file name =>
      rw [listEntries_file, listEntries_file, ih]
    | dir name sub =>
      rw [listEntries_dir, listEntries_dir, ih]
      simp [h]

theorem listEntries_large_depth_aux (cwd : String) :
    ∀ (n : Nat) (l : List Entry), sizeOf l < n →
      ∀ (opts : ListOptions) (base : String) (k : Int), (dirHeight l : Int) < k →
      listEntries cwd {opts with maxDepth := some k} base l =
        listEntries cwd {opts with maxDepth := none} base l := by
  intro n
  induction n with
  | zero =>
    intro l hl
    omega
  | succ n ih =>
    intro l hl opts base k hk
    cases l with
    | nil => rw [listEntries_nil, listEntries_nil]
    | cons e rest =>
      cases e with
      | file name =>
        have hrest : sizeOf rest < n := by
          simp only [List.cons.sizeOf_spec, Entry.file.sizeOf_spec] at hl
          omega
        have hdrest : (dirHeight rest : Int) < k := by
          rw [dirHeight_file] at hk
          exact hk
        rw [listEntries_file, listEntries_file, ih rest hrest opts base k hdrest]
      | dir name sub =>
        have hsub : sizeOf sub < n := by
          simp only [List.cons.sizeOf_spec, Entry.dir.sizeOf_spec] at hl
          omega
        have hrest : sizeOf rest < n := by
          simp only [List.cons.sizeOf_spec, Entry.dir.sizeOf_spec] at hl
          omega
        rw [dirHeight_dir] at hk
        have hdsub : (dirHeight sub : Int) < k - 1 := by
          push_cast at hk ⊢
          omega
        have hdrest : (dirHeight rest : Int) < k := by
          push_cast at hk ⊢
          omega
        have hk1 : ((some k : Option Int) == some 1) = false := by
          rw [beq_eq_false_iff_ne]
          have : k ≠ 1 := by push_cast at hk; omega
          simpa using this
        rw [listEntries_dir, listEntries_dir, ih rest hrest opts base k hdrest]
        simp only [descendOpts, hk1, show ((none : Option Int) == some 1) = false from rfl,
          Bool.not_false, Bool.and_true]
        rw [ih sub hsub opts (presolve cwd [base, name]) (k - 1) hdsub]

theorem listEntries_prune_aux (cwd : String) :
    ∀ (n : Nat) (l : List Entry), sizeOf l < n →
      ∀ (opts : ListOptions) (base : String), opts.hidden = false →
      listEntries cwd opts base l = listEntries cwd opts base (pruneHidden l) := by
  intro n
  induction n with
  | zero =>
    intro l hl
    omega
  | succ n ih =>
    intro l hl opts base hh
    cases l with
    | nil => rw [pruneHidden_nil]
    | cons e rest =>
      cases e with
      | file name =>
        have hrest : sizeOf rest < n := by
          simp only [List.cons.sizeOf_spec, Entry.file.sizeOf_spec] at hl
          omega
        rw [pruneHidden_file, listEntries_file]
        by_cases hd : startsWithDot name
        · simp only [hd, if_true, hh, Bool.not_false, Bool.and_self]
          rw [ih rest hrest opts base hh]
          simp
        · simp only [hd, Bool.false_eq_true, if_false, Bool.and_false, hh]
          rw [listEntries_file, ih rest hrest opts base hh]
          simp [hd]
      | dir name sub =>
        have hsub : sizeOf sub < n := by
          simp only [List.cons.sizeOf_spec, Entry.dir.sizeOf_spec] at hl
          omega
        have hrest : sizeOf rest < n := by
          simp only [List.cons.sizeOf_spec, Entry.dir.sizeOf_spec] at hl
          omega
        have hh2 : (descendOpts opts).hidden = false := by
          rw [descendOpts_hidden]
          exact hh
        rw [pruneHidden_dir, listEntries_dir]
        by_cases hd : startsWithDot name
        · simp only [hd, if_true, hh, Bool.not_false, Bool.and_self]
          rw [ih rest hrest opts base hh]
          simp
        · simp only [hd, Bool.false_eq_true, if_false, Bool.and_false, hh]
          rw [listEntries_dir, ih rest hrest opts base hh,
            ih sub hsub (descendOpts opts) (presolve cwd [base, name]) hh2]
          simp [hd]

theorem listEntries_nofilter_aux (cwd : String) :
    ∀ (n : Nat) (l : List Entry), sizeOf l < n →
      ∀ (opts : ListOptions) (base : String), opts.hidden = true →
      listEntries cwd opts base l = listNoFilter cwd opts base l := by
  intro n
  induction n with
  | zero =>
    intro l hl
    omega
  | succ n ih =>
    intro l hl opts base hh
    cases l with
    | nil => rw [listEntries_nil, listNoFilter_nil]
    | cons e rest =>
      cases e with
      | file name =>
        have hrest : sizeOf rest < n := by
          simp only [List.cons.sizeOf_spec, Entry.file.sizeOf_spec] at hl
          omega
        rw [listEntries_file, listNoFilter_file, ih rest hrest opts base hh]
        simp [hh]
      | dir name sub =>
        have hsub : sizeOf sub < n := by
          simp only [List.cons.sizeOf_spec, Entry.dir.sizeOf_spec] at hl
          omega
        have hrest : sizeOf rest < n := by
          simp only [List.cons.sizeOf_spec, Entry.dir.sizeOf_spec] at hl
          omega
        have hh2 : (descendOpts opts).hidden = true := by
          rw [descendOpts_hidden]
          exact hh
        rw [listEntries_dir, listNoFilter_dir, ih rest hrest opts base hh]
        by_cases hrec : opts.recursive && !(opts.maxDepth == some 1)
        · rw [ih sub hsub (descendOpts opts) (presolve cwd [base, name]) hh2] at *
          simp [hh, hrec]
        · simp [hh, hrec]

theorem isAbs_slash_append (s : String) : isAbs ("/" ++ s) = true := by
  rw [isAbs, startsWithChar, data_append_str]
  rfl

theorem resolveLoop_abs :
    ∀ (l : List String) (acc : String), (∃ p ∈ l, isAbs p = true) →
      (resolveLoop l acc).2 = true := by
  intro l
  induction l with
  | nil =>
    rintro acc ⟨p, hp, _⟩
    simp at hp
  | cons q rest ih =>
    rintro acc ⟨p, hp, hab⟩
    simp only [List.mem_cons] at hp
    by_cases hq : q == ""
    · have hqe : q = "" := by simpa using hq
      have hp2 : p ∈ rest := by
        rcases hp with hp | hp
        · subst hp
          rw [hqe] at hab
          simp [isAbs, startsWithChar] at hab
        · exact hp
      simp only [resolveLoop, hq, if_true]
      exact ih acc ⟨p, hp2, hab⟩
    · by_cases hqa : isAbs q
      · simp [resolveLoop, hq, hqa]
      · have hp2 : p ∈ rest := by
          rcases hp with hp | hp
          · subst hp
            exact absurd hab hqa
          · exact hp
        simp only [resolveLoop, hq, Bool.false_eq_true, if_false, hqa]
        exact ih _ ⟨p, hp2, hab⟩

theorem presolve_abs (cwd : String) (args : List String) (h : isAbs cwd = true) :
    isAbs (presolve cwd args) = true := by
  have habs : (resolveLoop (args.reverse ++ [cwd]) "").2 = true :=
    resolveLoop_abs _ "" ⟨cwd, by simp, h⟩
  rw [presolve]
  simp only [habs, if_true]
  exact isAbs_slash_append _

theorem listEntries_abs_aux (cwd : String) (h : isAbs cwd = true) :
    ∀ (n : Nat) (l : List Entry), sizeOf l < n →
      ∀ (opts : ListOptions) (base x : String),
      x ∈ listEntries cwd opts base l → isAbs x = true := by
  intro n
  induction n with
  | zero =>
    intro l hl
    omega
  | succ n ih =>
    intro l hl opts base x hx
    cases l with
    | nil =>
      rw [listEntries_nil] at hx
      simp at hx
    | cons e rest =>
      cases e with
      | file name =>
        have hrest : sizeOf rest < n := by
          simp only [List.cons.sizeOf_spec, Entry.file.sizeOf_spec] at hl
          omega
        rw [listEntries_file] at hx
        rcases List.mem_append.mp hx with hx | hx
        · split at hx
          · simp at hx
          · simp only [List.mem_singleton] at hx
            subst hx
            exact presolve_abs cwd _ h
        · exact ih rest hrest opts base x hx
      | dir name sub =>
        have hsub : sizeOf sub < n := by
          simp only [List.cons.sizeOf_spec, Entry.dir.sizeOf_spec] at hl
          omega
        have hrest : sizeOf rest < n := by
          simp only [List.cons.sizeOf_spec, Entry.dir.sizeOf_spec] at hl
          omega
        rw [listEntries_dir] at hx
        rcases List.mem_append.mp hx with hx | hx
        · split at hx
          · simp at hx
          · rcases List.mem_append.mp hx with hx | hx
            · split at hx
              · simp only [List.mem_singleton] at hx
                subst hx
                exact presolve_abs cwd _ h
              · simp at hx
            · split at hx
              · exact ih sub hsub (descendOpts opts) (presolve cwd [base, name]) x hx
              · simp at hx
        · exact ih rest hrest opts base x hx

/-! ## Claim theorems -/

/-- C4: `Path.tempDir` and `Path.tempDirSync` create a uniquely-named
directory whose location is the `tempDirPrefix` template (parent
directory defaulting to the host's temporary area, name defaulting to
the fixed prefix `node-`) followed by the host-generated suffix, push
that location onto the process-wide cleanup registry, and return a
`TempDir` handle wrapping exactly that location (the single-segment
`Path` constructor stores the string verbatim); when directory creation
fails the error propagates, no handle is produced, and the registry is
unchanged. -/
theorem tempDir_allocation (tmpdir : String) (reg : List String)
    (dirOpt nameOpt : Option String) :
    (∀ sfx : String,
      tempDir tmpdir reg dirOpt nameOpt (.ok sfx) =
        (.ok (tempDirPre tmpdir dirOpt nameOpt ++ sfx),
         reg ++ [tempDirPre tmpdir dirOpt nameOpt ++ sfx]) ∧
      tempDirSync tmpdir reg dirOpt nameOpt (.ok sfx) =
        (.ok (tempDirPre tmpdir dirOpt nameOpt ++ sfx),
         reg ++ [tempDirPre tmpdir dirOpt nameOpt ++ sfx])) ∧
    (∀ e : Thrown,
      tempDir tmpdir reg dirOpt nameOpt (.error e) = (.error e, reg) ∧
      tempDirSync tmpdir reg dirOpt nameOpt (.error e) = (.error e, reg)) ∧
    tempDirPre tmpdir none none = pjoin [tmpdir, "node-"] ∧
    (∀ d n : String, tempDirPre tmpdir (some d) (some n) = pjoin [d, n]) ∧
    (∀ cwd p : String, pathCtor cwd [p] = p) := by
  refine ⟨fun sfx => ⟨rfl, rfl⟩, fun e => ⟨rfl, rfl⟩, rfl, fun d n => rfl, fun cwd p => rfl⟩

/-- C5: a successful `TempDir.destroy` (or `destroySync`) returns
normally, removes the on-disk tree exactly once (a single host removal
call, on the handle's location), and deregisters by location-string
equality: the registry afterwards is the old registry with every entry
equal to the location filtered out, so no equal-valued entry remains. -/
theorem tempDir_destroy_deregisters (loc : String) (reg : List String) :
    destroy loc reg (.ok ()) = (.ok (), tempDirRemoved loc reg, [loc]) ∧
    destroySync loc reg (.ok ()) = (.ok (), tempDirRemoved loc reg, [loc]) ∧
    tempDirRemoved loc reg = reg.filter (fun t => !(t == loc)) ∧
    (tempDirRemoved loc reg).all (fun t => !(t == loc)) = true := by
  exact ⟨rfl, rfl, rfl, tempDirRemoved_all loc reg⟩

/-- C10: when the host removal inside `TempDir.destroy` or
`TempDir.destroySync` fails, the error propagates, exactly one removal
was attempted, and the registry is unchanged — so a later exit sweep
(whose removals succeed) still attempts every entry of that unchanged
registry, the handle's location included. -/
theorem destroy_failure_keeps_registration (loc : String) (reg : List String) (e : Thrown) :
    destroy loc reg (.error e) = (.error e, reg, [loc]) ∧
    destroySync loc reg (.error e) = (.error e, reg, [loc]) ∧
    sweepExit (fun _ => .ok ()) reg = (.ok (), reg) := by
  exact ⟨rfl, rfl, sweepExit_all_ok reg⟩

/-- C6: the process-exit sweep attempts the removal of every location
still registered, in order, when each removal either succeeds or fails
with an `Error` carrying code `ENOENT` (which is swallowed and treated
as success); the first failure of any other kind — an `Error` with a
different or missing code, or a thrown non-`Error` value — is re-raised
and ends the sweep. -/
theorem exit_sweep_error_policy (out : String → Except Thrown Unit) :
    (∀ reg : List String,
      (∀ p ∈ reg, out p = .ok () ∨ out p = .error (.errObj (some "ENOENT"))) →
      sweepExit out reg = (.ok (), reg)) ∧
    (∀ (reg1 : List String) (p : String) (reg2 : List String) (e : Thrown),
      (∀ q ∈ reg1, out q = .ok () ∨ out q = .error (.errObj (some "ENOENT"))) →
      out p = .error e → rethrown e = true →
      sweepExit out (reg1 ++ p :: reg2) = (.error e, reg1 ++ [p])) ∧
    rethrown (.errObj (some "ENOENT")) = false ∧
    rethrown .nonError = true ∧
    (∀ c : Option String, c ≠ some "ENOENT" → rethrown (.errObj c) = true) := by
  refine ⟨sweepExit_tolerated out, sweepExit_raise out, rfl, rfl, ?_⟩
  intro c hc
  rw [rethrown]
  simpa using hc

/-- Witness for `exit_sweep_error_policy`: a sweep over two registered
locations where the first removal fails with `ENOENT` completes,
attempting both; and a sweep where the second removal throws a
non-`Error` value re-raises it after attempting both. -/
theorem exit_sweep_error_policy_witness :
    sweepExit
        (fun p => if p == "/t/a" then .error (.errObj (some "ENOENT")) else .ok ())
        ["/t/a", "/t/b"] = (.ok (), ["/t/a", "/t/b"]) ∧
    sweepExit
        (fun p => if p == "/t/b" then .error .nonError
                  else .error (.errObj (some "ENOENT")))
        ["/t/a", "/t/b"] = (.error .nonError, ["/t/a", "/t/b"]) := by
  constructor
  · refine (exit_sweep_error_policy _).1 ["/t/a", "/t/b"] ?_
    intro p hp
    simp only [List.mem_cons, List.mem_singleton, List.not_mem_nil, or_false] at hp
    rcases hp with h | h
    · subst h
      right
      rfl
    · subst h
      left
      rfl
  · have h := (exit_sweep_error_policy
        (fun p => if p == "/t/b" then .error .nonError
                  else .error (.errObj (some "ENOENT")))).2.1
        ["/t/a"] "/t/b" [] .nonError
        (by
          intro q hq
          simp only [List.mem_singleton, List.mem_cons, List.not_mem_nil, or_false] at hq
          subst hq
          right
          rfl)
        rfl rfl
    simpa using h

/-- C8 counterexample: constructing a `Path` from exactly one segment
stores that segment verbatim, so a single empty-string segment yields
an empty stored location — the "never empty after construction"
invariant fails for this construction. -/
theorem path_ctor_empty_segment_cex : pathCtor "/home/kraih" [""] = "" := rfl

/-- C8 (amended): after construction with zero segments the stored
location is the current working directory (non-empty whenever the host
working directory is); with two or more segments it is the host
path-join of the segments, which is always non-empty; with exactly one
segment it is that segment verbatim, so it is empty exactly when the
single supplied segment is empty. -/
theorem path_ctor_location_invariant (cwd : String) (parts : List String) (h : cwd ≠ "") :
    (parts = [] → pathCtor cwd parts = cwd ∧ pathCtor cwd parts ≠ "") ∧
    (∀ p, parts = [p] → pathCtor cwd parts = p) ∧
    (2 ≤ parts.length → pathCtor cwd parts = pjoin parts ∧ pathCtor cwd parts ≠ "") := by
  refine ⟨?_, ?_, ?_⟩
  · rintro rfl
    exact ⟨rfl, h⟩
  · rintro p rfl
    rfl
  · intro hlen
    cases parts with
    | nil => simp at hlen
    | cons p rest =>
      cases rest with
      | nil => simp at hlen
      | cons q rest2 =>
        have e : pathCtor cwd (p :: q :: rest2) = pjoin (p :: q :: rest2) := rfl
        exact ⟨e, by rw [e]; exact pjoin_ne_empty _⟩

/-- Witness for `path_ctor_location_invariant`: a two-segment
construction goes through the host path-join and is non-empty. -/
theorem path_ctor_location_invariant_witness :
    pathCtor "/home" ["a", "b"] = pjoin ["a", "b"] ∧ pathCtor "/home" ["a", "b"] ≠ "" :=
  (path_ctor_location_invariant "/home" ["a", "b"] (by decide)).2.2 (by decide)

/-- C1: evaluation of `list` with `recursive: true, dir: true,
maxDepth: 1` over the directory tree of the repository's own test
(`foo` containing `bar/one.txt`, `two.txt`, `.three.txt`, and
`one/two/three/four/five/deep.txt`): because the guard
`options.maxDepth !== 1` is already false at the top-level call, no
recursion happens at all and only the root's immediate entries are
yielded — the test (and the claim) expect the immediate subdirectories
to be entered once, additionally yielding `bar`, `two.txt` and `two`. -/
theorem list_maxDepth_one_suppresses_descent_eval :
    listEntries "/" {dir := true, recursive := true, maxDepth := some 1} "/tmp/x"
      [.dir "foo" [.dir "bar" [.file "one.txt"], .file "two.txt", .file ".three.txt"],
       .dir "one" [.dir "two" [.dir "three" [.dir "four" [.dir "five" [.file "deep.txt"]]]]]] =
      ["/tmp/x/foo", "/tmp/x/one"] ∧
    "/tmp/x/foo/two.txt" ∉
      listEntries "/" {dir := true, recursive := true, maxDepth := some 1} "/tmp/x"
        [.dir "foo" [.dir "bar" [.file "one.txt"], .file "two.txt", .file ".three.txt"],
         .dir "one" [.dir "two" [.dir "three" [.dir "four" [.dir "five" [.file "deep.txt"]]]]]] := by
  constructor
  · simp [listEntries_nil, listEntries_file, listEntries_dir, descendOpts]
    decide
  · simp [listEntries_nil, listEntries_file, listEntries_dir, descendOpts]
    decide

/-- C7: over the root `/tmp/x` containing exactly `foo/bar/one.txt`,
`foo/two.txt` and `foo/.three.txt`, `list({recursive: true})` yields
exactly the set `{foo/bar/one.txt, foo/two.txt}` and
`list({dir: true, hidden: true})` on `foo` yields exactly the set
`{foo/.three.txt, foo/bar, foo/two.txt}` (stated up to permutation:
sets with no ordering requirement). -/
theorem list_concrete_scenario :
    List.Perm
      (listEntries "/" {recursive := true} "/tmp/x"
        [.dir "foo" [.dir "bar" [.file "one.txt"], .file "two.txt", .file ".three.txt"]])
      ["/tmp/x/foo/bar/one.txt", "/tmp/x/foo/two.txt"] ∧
    List.Perm
      (listEntries "/" {dir := true, hidden := true} "/tmp/x/foo"
        [.dir "bar" [.file "one.txt"], .file "two.txt", .file ".three.txt"])
      ["/tmp/x/foo/.three.txt", "/tmp/x/foo/bar", "/tmp/x/foo/two.txt"] := by
  constructor
  · have h : listEntries "/" {recursive := true} "/tmp/x"
        [.dir "foo" [.dir "bar" [.file "one.txt"], .file "two.txt", .file ".three.txt"]] =
        ["/tmp/x/foo/bar/one.txt", "/tmp/x/foo/two.txt"] := by
      simp [listEntries_nil, listEntries_file, listEntries_dir, descendOpts]
      decide
    rw [h]
  · have h : listEntries "/" {dir := true, hidden := true} "/tmp/x/foo"
        [.dir "bar" [.file "one.txt"], .file "two.txt", .file ".three.txt"] =
        ["/tmp/x/foo/bar", "/tmp/x/foo/two.txt", "/tmp/x/foo/.three.txt"] := by
      simp [listEntries_nil, listEntries_file, listEntries_dir, descendOpts]
      decide
    rw [h]
    decide

/-- C2: in `list` with `recursive: true`, the options object passed to a
recursive descent carries the caller's `maxDepth` minus one (when
`maxDepth` is defined); a call whose `maxDepth` is exactly `1` behaves
like a non-recursive call — its own immediate entries are still listed,
but no recursive call is made; and when `maxDepth` is absent the walk
equals the walk under any finite bound larger than the tree's directory
height, i.e. recursion is unbounded. -/
theorem list_maxDepth_semantics (cwd base : String) (opts : ListOptions) :
    (∀ k : Int, opts.maxDepth = some k →
      descendOpts opts = {opts with maxDepth := some (k - 1)}) ∧
    (∀ (name : String) (sub rest : List Entry) (k : Int),
      opts.recursive = true → opts.maxDepth = some k → k ≠ 1 →
      (!opts.hidden && startsWithDot name) = false →
      listEntries cwd opts base (.dir name sub :: rest) =
        (if opts.dir then [presolve cwd [base, name]] else []) ++
        listEntries cwd {opts with maxDepth := some (k - 1)} (presolve cwd [base, name]) sub ++
        listEntries cwd opts base rest) ∧
    (opts.maxDepth = some 1 →
      ∀ l : List Entry,
        listEntries cwd opts base l = listEntries cwd {opts with recursive := false} base l) ∧
    (opts.maxDepth = none →
      ∀ (l : List Entry) (k : Int), (dirHeight l : Int) < k →
        listEntries cwd opts base l = listEntries cwd {opts with maxDepth := some k} base l) := by
  refine ⟨?_, ?_, ?_, ?_⟩
  · intro k hk
    simp [descendOpts, hk]
  · intro name sub rest k hrec hmd hk1 hhid
    have hb : (opts.maxDepth == some 1) = false := by
      rw [hmd, beq_eq_false_iff_ne]
      simpa using hk1
    have hd : descendOpts opts = {opts with maxDepth := some (k - 1)} := by
      simp [descendOpts, hmd]
    rw [listEntries_dir, hd]
    simp only [hhid, Bool.false_eq_true, if_false, hrec, hb, Bool.not_false, Bool.and_true,
      if_true, List.append_assoc]
  · intro h1 l
    exact listEntries_maxDepth_one cwd base opts h1 l
  · intro hm l k hk
    have h2 := listEntries_large_depth_aux cwd (sizeOf l + 1) l (by omega) opts base k hk
    have he : ({opts with maxDepth := none} : ListOptions) = opts := by
      rcases opts with ⟨d, hh, r, m⟩
      simp only at hm
      subst hm
      rfl
    rw [he] at h2
    exact h2.symm

/-- Witness for `list_maxDepth_semantics`: over a one-directory tree, a
call with `maxDepth: 1` lists like a non-recursive call, and an absent
`maxDepth` lists like the bound `2`, which exceeds the tree's directory
height. -/
theorem list_maxDepth_semantics_witness :
    listEntries "/" {recursive := true, maxDepth := some 1} "/r" [.dir "d" [.file "f"]] =
      listEntries "/" {dir := false, hidden := false, recursive := false, maxDepth := some 1}
        "/r" [.dir "d" [.file "f"]] ∧
    listEntries "/" {recursive := true} "/r" [.dir "d" [.file "f"]] =
      listEntries "/" {dir := false, hidden := false, recursive := true, maxDepth := some 2}
        "/r" [.dir "d" [.file "f"]] := by
  constructor
  · exact (list_maxDepth_semantics "/" "/r" {recursive := true, maxDepth := some 1}).2.2.1
      rfl [.dir "d" [.file "f"]]
  · exact (list_maxDepth_semantics "/" "/r" {recursive := true}).2.2.2
      rfl [.dir "d" [.file "f"]] 2
      (by rw [dirHeight_dir, dirHeight_file, dirHeight_nil]; norm_num)

/-- C3: when `hidden` is false or omitted, the traversal equals the
traversal of the tree with every dot-named entry (file or directory, at
any depth) removed — such entries are neither yielded nor recursed
into; when `hidden` is true the traversal equals the traversal with the
hidden-entry check removed — dot-named entries are treated exactly like
any other entry. -/
theorem list_hidden_rule (cwd base : String) (opts : ListOptions) (l : List Entry) :
    (opts.hidden = false →
      listEntries cwd opts base l = listEntries cwd opts base (pruneHidden l)) ∧
    (opts.hidden = true →
      listEntries cwd opts base l = listNoFilter cwd opts base l) := by
  constructor
  · intro hh
    exact listEntries_prune_aux cwd (sizeOf l + 1) l (by omega) opts base hh
  · intro hh
    exact listEntries_nofilter_aux cwd (sizeOf l + 1) l (by omega) opts base hh

/-- Witness for `list_hidden_rule`: a tree with a hidden file and a
hidden directory, listed with default options, equals the listing of
its pruned form; with `hidden: true` the listing equals the unfiltered
traversal. -/
theorem list_hidden_rule_witness :
    listEntries "/" {} "/r" [.file ".a", .dir ".d" [.file "x"], .file "b"] =
      listEntries "/" {} "/r" (pruneHidden [.file ".a", .dir ".d" [.file "x"], .file "b"]) ∧
    listEntries "/" {hidden := true} "/r" [.file ".a", .dir ".d" [.file "x"], .file "b"] =
      listNoFilter "/" {hidden := true} "/r" [.file ".a", .dir ".d" [.file "x"], .file "b"] :=
  ⟨(list_hidden_rule "/" "/r" {} [.file ".a", .dir ".d" [.file "x"], .file "b"]).1 rfl,
   (list_hidden_rule "/" "/r" {hidden := true}
      [.file ".a", .dir ".d" [.file "x"], .file "b"]).2 rfl⟩

/-- C9: a non-hidden file entry is yielded as the host path-resolution
of the listed directory's location with the entry's base name, and
every location yielded by `list` — at any depth, even when the listed
path is relative — is absolute, provided the process working directory
is absolute. -/
theorem list_yields_absolute (cwd base : String) (opts : ListOptions) (l : List Entry)
    (h : isAbs cwd = true) :
    (∀ (name : String) (rest : List Entry), (!opts.hidden && startsWithDot name) = false →
      listEntries cwd opts base (.file name :: rest) =
        presolve cwd [base, name] :: listEntries cwd opts base rest) ∧
    (∀ x ∈ listEntries cwd opts base l, isAbs x = true) := by
  constructor
  · intro name rest hcond
    rw [listEntries_file]
    simp [hcond]
  · intro x hx
    exact listEntries_abs_aux cwd h (sizeOf l + 1) l (by omega) opts base x hx

/-- Witness for `list_yields_absolute`: listing the relative path `rel`
with an absolute working directory yields the absolute location
`/cwd/rel/a`. -/
theorem list_yields_absolute_witness : isAbs (presolve "/cwd" ["rel", "a"]) = true :=
  (list_yields_absolute "/cwd" "rel" {} [.file "a"] (by decide)).2
    (presolve "/cwd" ["rel", "a"])
    (by
      rw [listEntries_file, listEntries_nil]
      simp [startsWithDot, startsWithChar])
